import Mathlib

/-!
Verification development for the pdfcraft document-to-PDF processors
(`src/lib/pdf/processors/pptx-to-pdf.ts`, `src/lib/pdf/processors/rtf-to-pdf.ts`
and the Word processor). Each processor shares the same shape: a module-level
memoized converter promise (`converterPromise` / `converterInstance`), a
`getConverter` single-flight acquisition function, and a `process` pipeline
that validates the input file, acquires the engine, converts, and reports
progress with cancellation checkpoints.

Strings are embedded as `List Char` (JavaScript strings are sequences of
code units; all operations here are per-character). Percentages are `ℚ`.
-/

instance exceptDecEq {ε α : Type} [DecidableEq ε] [DecidableEq α] :
    DecidableEq (Except ε α) := fun x y =>
  match x, y with
  | Except.ok a, Except.ok b =>
      if h : a = b then isTrue (by rw [h]) else isFalse (by simp [h])
  | Except.error a, Except.error b =>
      if h : a = b then isTrue (by rw [h]) else isFalse (by simp [h])
  | Except.ok _, Except.error _ => isFalse (by simp)
  | Except.error _, Except.ok _ => isFalse (by simp)

/-- Error codes of `PDFErrorCode` used by the processors. -/
inductive PDFErrorCode where
  | INVALID_OPTIONS
  | FILE_TYPE_INVALID
  | PROCESSING_CANCELLED
  | PROCESSING_FAILED
deriving DecidableEq, Repr

/-- The LibreOffice converter object: an identity plus its `isReady` flag. -/
structure Conv where
  id : Nat
  ready : Bool
deriving DecidableEq, Repr

/-- The two module-level variables shared by all operations of one processor
file: `converterPromise` (here, `none` when unset, otherwise the settled value
the awaiters observe) and `converterInstance`. -/
structure Globals where
  converterPromise : Option (Except (List Char) Unit)
  converterInstance : Option Conv
deriving DecidableEq, Repr

/-- Behaviour of the external engine during one initialization: the
sub-progress events it reports through the callback, and whether the
initialization resolves or rejects. -/
structure EngineBeh where
  initEvents : List (ℚ × List Char)
  initOutcome : Except (List Char) Unit
deriving DecidableEq, Repr

/-- An input file: its `name` and MIME `type` fields. -/
structure FileRec where
  name : List Char
  type : List Char
deriving DecidableEq, Repr

/-- The `ProcessOutput` result contract: success with a blob (abstracted to an
identifier), suggested file name and metadata format, or a coded error. -/
inductive ProcessOutput where
  | success (blob : Nat) (suggestedFileName : List Char) (format : List Char)
  | error (code : PDFErrorCode) (message : List Char) (detail : Option (List Char))
deriving DecidableEq, Repr

/-- Per-operation progress state: last emitted percent and the ordered list of
events delivered to the caller's `onProgress`. -/
structure OpState where
  lastPercent : ℚ
  events : List (ℚ × List Char)
deriving DecidableEq, Repr

/-- Modelled from the spec: `BasePDFProcessor.updateProgress` lives in
`src/lib/pdf/processor.ts`, which is not under `src/`. Per §4.2 of the spec the
emitted percent stream "never decrease[s] ... even if the raw feed is noisy",
so the emitted value is the maximum of the previously emitted percent and the
new raw percent, and each call delivers one event to the progress sink. -/
def updateProgress (p : ℚ) (m : List Char) (s : OpState) : OpState :=
  ⟨max s.lastPercent p, s.events ++ [(max s.lastPercent p, m)]⟩

/-- JavaScript `name.split('.')`. -/
def splitDot : List Char → List (List Char)
  | [] => [[]]
  | c :: rest =>
      if c = '.' then [] :: splitDot rest
      else
        match splitDot rest with
        | [] => [[c]]
        | s :: ss => (c :: s) :: ss

/-- JavaScript `name.split('.').pop()` (`split` never yields an empty array,
so the default is irrelevant). -/
def lastSegment (name : List Char) : List Char :=
  (splitDot name).getLastD []

/-- One alternative of the case-insensitive extension-stripping regex
`/\.(…)$/i`: if `name` ends (case-insensitively) with `'.' :: ext`, return the
name with that suffix removed. `ext` is given in lower case. -/
def trySuffix (ext name : List Char) : Option (List Char) :=
  let k := ext.length + 1
  let r := name.reverse
  if (r.take k).map Char.toLower = ext.reverse ++ ['.']
  then some ((r.drop k).reverse)
  else none

/-- The whole stripping regex: try each alternative in order; if none matches,
`String.replace` leaves the name unchanged. -/
def stripFirst : List (List Char) → List Char → List Char
  | [], name => name
  | e :: es, name =>
      match trySuffix e name with
      | some b => b
      | none => stripFirst es name

/-- Per-format data of one processor file: accepted extensions, the
alternatives of the output-name stripping regex, and the user-facing
messages. -/
structure Format where
  validExts : List (List Char)
  stripExts : List (List Char)
  arityMessage : List Char
  typeMessage : List Char
  convertingMessage : List Char
  failMessage : List Char
deriving DecidableEq, Repr

/-- `PPTXToPDFProcessor` configuration, from `pptx-to-pdf.ts`. -/
def pptxFormat : Format :=
  { validExts := ["pptx".data, "ppt".data, "odp".data]
  , stripExts := ["pptx".data, "ppt".data, "odp".data]
  , arityMessage := "Please provide exactly one PowerPoint presentation.".data
  , typeMessage := "Invalid file type. Please upload .pptx, .ppt, or .odp.".data
  , convertingMessage := "Converting PowerPoint to PDF...".data
  , failMessage := "Failed to convert PowerPoint to PDF.".data }

/-- `RTFToPDFProcessor` configuration, from `rtf-to-pdf.ts`. -/
def rtfFormat : Format :=
  { validExts := ["rtf".data]
  , stripExts := ["rtf".data]
  , arityMessage := "Please provide exactly one RTF file.".data
  , typeMessage := "Invalid file type. Please upload an .rtf file.".data
  , convertingMessage := "Converting RTF to PDF...".data
  , failMessage := "Failed to convert RTF to PDF.".data }

/-- `WordToPDFProcessor` configuration, from the Word processor source. -/
def wordFormat : Format :=
  { validExts := ["docx".data, "doc".data, "odt".data, "rtf".data]
  , stripExts := ["docx".data, "doc".data, "odt".data, "rtf".data]
  , arityMessage := "Please provide exactly one Word document.".data
  , typeMessage := "Invalid file type. Please upload .docx, .doc, .odt, or .rtf.".data
  , convertingMessage := "Converting Word document to PDF...".data
  , failMessage := "Failed to convert Word document to PDF.".data }

/-- The loading message shared by all three processors. -/
def loadingMessage : List Char :=
  "Loading conversion engine (first time may take 1-2 minutes)...".data

/-- The completion message shared by all three processors. -/
def doneMessage : List Char := "Conversion complete!".data

/-- The cancellation message shared by all three processors. -/
def cancelledMessage : List Char := "Processing was cancelled.".data

/-- Result of one `getConverter` call in the sequential (single-operation)
view: the value returned or thrown, the module-level state afterwards, the
sub-progress events this call forwarded to its own `onProgress` argument, and
whether this call invoked `converterInstance.initialize`. -/
structure AcquireResult where
  result : Except (List Char) Conv
  globals : Globals
  forwarded : List (ℚ × List Char)
  initCalled : Bool
deriving DecidableEq, Repr

/-- The part of `getConverter` after the `isReady` fast path: await the
memoized promise if it exists, otherwise create it (the async IIFE imports the
module, sets `converterInstance`, and awaits `initialize`, whose sub-progress
is forwarded to this caller's callback). -/
def awaitMemo (beh : EngineBeh) (g : Globals) : AcquireResult :=
  match g.converterPromise with
  | some (Except.error e) => ⟨Except.error e, g, [], false⟩
  | some (Except.ok _) =>
      ⟨(match g.converterInstance with
        | some c => Except.ok c
        | none => Except.error "null converter".data), g, [], false⟩
  | none =>
      let inst : Conv :=
        ⟨0, match beh.initOutcome with | Except.ok _ => true | Except.error _ => false⟩
      let g2 : Globals := ⟨some beh.initOutcome, some inst⟩
      ⟨(match beh.initOutcome with
        | Except.ok _ => Except.ok inst
        | Except.error e => Except.error e), g2, beh.initEvents, true⟩

/-- `getConverter` from the processor files, sequential view: fast-path return
when `converterInstance?.isReady()`, otherwise await or create the memoized
promise. -/
def getConverter (beh : EngineBeh) (g : Globals) : AcquireResult :=
  match g.converterInstance with
  | some c => if c.ready then ⟨Except.ok c, g, [], false⟩ else awaitMemo beh g
  | none => awaitMemo beh g

/-- Marker for an engine interaction performed by one `process` call. -/
inductive ECall where
  | acquire
  | convert
deriving DecidableEq, Repr

/-- Result of one `process` call: its output, the progress events it emitted,
the module-level engine state afterwards, and which engine interactions it
performed. -/
structure ProcResult where
  output : ProcessOutput
  events : List (ℚ × List Char)
  globals : Globals
  engineCalls : List ECall
deriving DecidableEq, Repr

/-- The `process` method shared (verbatim up to format data) by the three
processors. `beh` is the engine's initialization behaviour,
`convertOutcome` the outcome of `converter.convertToPdf(file)`, and `r1`,
`r2` the values read by `this.checkCancelled()` at the two checkpoints
(modelled from the spec: `checkCancelled` reads the operation's cancellation
flag; it is in the base class outside `src/`). Output construction
(`createErrorOutput` / `createSuccessOutput`) is likewise modelled from the
spec's result contract in §6. -/
def process (fmt : Format) (beh : EngineBeh) (convertOutcome : Except (List Char) Nat)
    (r1 r2 : Bool) (g : Globals) (files : List FileRec) : ProcResult :=
  match files with
  | [file] =>
      let ext := (lastSegment file.name).map Char.toLower
      if fmt.validExts.contains ext then
        let s1 := updateProgress 5 loadingMessage ⟨0, []⟩
        let a := getConverter beh g
        let s2 := a.forwarded.foldl
          (fun s pm => updateProgress (min (pm.1 * (4 / 5)) 80) pm.2 s) s1
        match a.result with
        | Except.error e =>
            ⟨ProcessOutput.error PDFErrorCode.PROCESSING_FAILED fmt.failMessage (some e),
              s2.events, a.globals, [ECall.acquire]⟩
        | Except.ok _ =>
            if r1 then
              ⟨ProcessOutput.error PDFErrorCode.PROCESSING_CANCELLED cancelledMessage none,
                s2.events, a.globals, [ECall.acquire]⟩
            else
              let s3 := updateProgress 85 fmt.convertingMessage s2
              match convertOutcome with
              | Except.error e =>
                  ⟨ProcessOutput.error PDFErrorCode.PROCESSING_FAILED fmt.failMessage (some e),
                    s3.events, a.globals, [ECall.acquire, ECall.convert]⟩
              | Except.ok blob =>
                  if r2 then
                    ⟨ProcessOutput.error PDFErrorCode.PROCESSING_CANCELLED cancelledMessage none,
                      s3.events, a.globals, [ECall.acquire, ECall.convert]⟩
                  else
                    let s4 := updateProgress 100 doneMessage s3
                    ⟨ProcessOutput.success blob
                        (stripFirst fmt.stripExts file.name ++ ".pdf".data) "pdf".data,
                      s4.events, a.globals, [ECall.acquire, ECall.convert]⟩
      else
        ⟨ProcessOutput.error PDFErrorCode.FILE_TYPE_INVALID fmt.typeMessage
            (some ("Received: ".data ++ (if file.type.isEmpty then file.name else file.type))),
          [], g, []⟩
  | _ =>
      ⟨ProcessOutput.error PDFErrorCode.INVALID_OPTIONS fmt.arityMessage
          (some ("Received ".data ++ (Nat.repr files.length).data ++ " file(s).".data)),
        [], g, []⟩

namespace Machine

/-!
Interleaving semantics for concurrent `getConverter` calls. JavaScript is
single-threaded and cooperative: each call runs atomically between `await`
points. A configuration holds the module-level variables plus one task per
caller; the async IIFE that performs the initialization is modelled by
`IState` (created / suspended at the dynamic `import` / running `initialize`
with the remaining progress events / settled). A scheduler step picks one
enabled atomic segment.
-/

/-- State of one `getConverter` caller: not yet started, suspended awaiting
`converterPromise`, or returned/threw with a result (the id of the converter
it observed, or the rejection reason). -/
inductive TaskState where
  | idle
  | waiting
  | done (r : Except (List Char) Nat)
deriving DecidableEq, Repr

/-- State of the initialization IIFE. -/
inductive IState where
  | notCreated
  | importing
  | running (rest : List (ℚ × List Char))
  | settled
deriving DecidableEq, Repr

/-- A configuration of the concurrent system. `logs` records, per caller, the
sub-progress notifications delivered to that caller's `onProgress` callback;
`initCalls` counts invocations of `converterInstance.initialize`. -/
structure MConfig where
  promiseSet : Bool
  inst : Option Conv
  istate : IState
  initCalls : Nat
  initiator : Option Nat
  tasks : List TaskState
  logs : List (List (ℚ × List Char))
deriving DecidableEq, Repr

/-- Scheduler actions: start caller `i`'s synchronous segment, complete the
dynamic import (which sets `converterInstance` and invokes `initialize`),
deliver the next progress event, settle the promise, or resume a waiting
caller after settlement. -/
inductive Act where
  | start (i : Nat)
  | importDone
  | progress
  | settle
  | resume (i : Nat)
deriving DecidableEq, Repr

/-- One atomic step. Returns `none` when the action is not enabled. A `start`
mirrors `getConverter`'s synchronous prefix: the `isReady` fast path, the
attach-to-existing-promise path, and the create-the-promise path (the IIFE
runs synchronously up to `await import`, so the caller then suspends on
`converterPromise`). `progress` delivers to the initiator's callback only,
because only the creating call's `onProgress` is captured by the IIFE's
closure. -/
def step (beh : EngineBeh) (c : MConfig) : Act → Option MConfig
  | Act.start i =>
      match c.tasks[i]? with
      | some TaskState.idle =>
          if (c.inst.map (fun cv => cv.ready)).getD false then
            some { c with
              tasks := c.tasks.set i (TaskState.done (Except.ok ((c.inst.map Conv.id).getD 0))) }
          else if c.promiseSet then
            some { c with tasks := c.tasks.set i TaskState.waiting }
          else
            some { c with promiseSet := true, istate := IState.importing,
                          initiator := some i, tasks := c.tasks.set i TaskState.waiting }
      | _ => none
  | Act.importDone =>
      match c.istate with
      | IState.importing =>
          some { c with inst := some ⟨0, false⟩, istate := IState.running beh.initEvents,
                        initCalls := c.initCalls + 1 }
      | _ => none
  | Act.progress =>
      match c.istate, c.initiator with
      | IState.running (e :: rest), some j =>
          match c.logs[j]? with
          | some lj => some { c with istate := IState.running rest,
                                     logs := c.logs.set j (lj ++ [e]) }
          | none => none
      | _, _ => none
  | Act.settle =>
      match c.istate with
      | IState.running [] =>
          some { c with istate := IState.settled,
                        inst := match beh.initOutcome with
                                | Except.ok _ => c.inst.map (fun cv => ⟨cv.id, true⟩)
                                | Except.error _ => c.inst }
      | _ => none
  | Act.resume i =>
      match c.tasks[i]?, c.istate with
      | some TaskState.waiting, IState.settled =>
          some { c with tasks := c.tasks.set i (TaskState.done
            (match beh.initOutcome with
             | Except.ok _ =>
                 match c.inst with
                 | some cv => Except.ok cv.id
                 | none => Except.error "null converter".data
             | Except.error e => Except.error e)) }
      | _, _ => none

/-- Initial configuration with `N` callers and the engine `Unrequested`
(both module variables null). -/
def initConfig (N : Nat) : MConfig :=
  ⟨false, none, IState.notCreated, 0, none, List.replicate N TaskState.idle,
    List.replicate N []⟩

/-- Run a list of scheduler actions from a configuration. -/
def runFrom (beh : EngineBeh) (c : MConfig) (acts : List Act) : Option MConfig :=
  acts.foldlM (step beh) c

/-- Run a list of scheduler actions from the `Unrequested` initial
configuration with `N` callers. -/
def run (beh : EngineBeh) (N : Nat) (acts : List Act) : Option MConfig :=
  runFrom beh (initConfig N) acts

/-- The result every caller observes once the one initialization settles:
the single converter instance (id `0`) on success, the rejection reason on
failure. -/
def finalResult (beh : EngineBeh) : Except (List Char) Nat :=
  match beh.initOutcome with
  | Except.ok _ => Except.ok 0
  | Except.error e => Except.error e

/-- The `isReady` flag of the instance after the initialization settles. -/
def outcomeReady (beh : EngineBeh) : Bool :=
  match beh.initOutcome with
  | Except.ok _ => true
  | Except.error _ => false

/-- Value of `converterInstance` as a function of the IIFE's state. -/
def instOf (beh : EngineBeh) : IState → Option Conv
  | IState.notCreated => none
  | IState.importing => none
  | IState.running _ => some ⟨0, false⟩
  | IState.settled => some ⟨0, outcomeReady beh⟩

/-- Number of `initialize` invocations as a function of the IIFE's state. -/
def initCallsOf : IState → Nat
  | IState.notCreated => 0
  | IState.importing => 0
  | IState.running _ => 1
  | IState.settled => 1

/-- Progress events not yet delivered, as a function of the IIFE's state. -/
def pendingOf (beh : EngineBeh) : IState → List (ℚ × List Char)
  | IState.notCreated => beh.initEvents
  | IState.importing => beh.initEvents
  | IState.running rest => rest
  | IState.settled => []

end Machine

/-- Helper: setting at the length of the left part of an append. -/
theorem set_append_len {α : Type} (l r : List α) (a : α) :
    (l ++ r).set l.length a = l ++ r.set 0 a := by
  induction l with
  | nil => simp
  | cons x xs ih => simp [ih]

namespace Machine

/-- Inductive invariant of the concurrent acquisition system with `N`
callers. -/
structure MInv (beh : EngineBeh) (N : Nat) (c : MConfig) : Prop where
  tlen : c.tasks.length = N
  llen : c.logs.length = N
  promiseIff : c.promiseSet = true ↔ c.istate ≠ IState.notCreated
  instEq : c.inst = instOf beh c.istate
  callsEq : c.initCalls = initCallsOf c.istate
  doneInv : ∀ (i : Nat) (r : Except (List Char) Nat),
      c.tasks[i]? = some (TaskState.done r) →
      c.istate = IState.settled ∧ r = finalResult beh
  initiatorIff : c.initiator = none ↔ c.istate = IState.notCreated
  initiatorLt : ∀ (j : Nat), c.initiator = some j → j < N
  logsOther : ∀ (j : Nat) (lj : List (ℚ × List Char)),
      c.logs[j]? = some lj → c.initiator ≠ some j → lj = []
  logsInit : ∀ (j : Nat) (lj : List (ℚ × List Char)),
      c.initiator = some j → c.logs[j]? = some lj →
      lj ++ pendingOf beh c.istate = beh.initEvents

/-- The invariant holds initially. -/
theorem inv_init (beh : EngineBeh) (N : Nat) : MInv beh N (initConfig N) := by
  refine ⟨?_, ?_, ?_, ?_, ?_, ?_, ?_, ?_, ?_, ?_⟩ <;>
    simp [initConfig, instOf, initCallsOf, pendingOf]
  · intro i r hir
    rw [List.getElem?_replicate] at hir
    split at hir <;> simp_all
  · intro j lj hlj
    rw [List.getElem?_replicate] at hlj
    split at hlj <;> simp_all

/-- If the `isReady` fast path fires, the initialization has settled
successfully. -/
theorem ready_facts {beh : EngineBeh} {N : Nat} {c : MConfig} (h : MInv beh N c)
    (hr : (c.inst.map (fun cv => cv.ready)).getD false = true) :
    c.istate = IState.settled ∧ c.inst = some ⟨0, true⟩ ∧
      finalResult beh = Except.ok 0 := by
  have hi := h.instEq
  cases hst : c.istate <;> rw [hst] at hi <;> rw [hi] at hr <;>
    simp [instOf] at hr ⊢
  cases hout : beh.initOutcome with
  | ok u =>
      refine ⟨?_, by simp [finalResult, hout]⟩
      rw [hi]
      simp [instOf, outcomeReady, hout]
  | error e =>
      rw [outcomeReady, hout] at hr
      simp at hr

/-- Preservation of the invariant by a `start` step. -/
theorem inv_start {beh : EngineBeh} {N : Nat} {c c' : MConfig} {i : Nat}
    (h : MInv beh N c) (hs : step beh c (Act.start i) = some c') :
    MInv beh N c' := by
  simp only [step] at hs
  cases hti : c.tasks[i]? with
  | none => rw [hti] at hs; cases hs
  | some t =>
    rw [hti] at hs
    cases t with
    | waiting => cases hs
    | done r => cases hs
    | idle =>
      have hilt : i < N := h.tlen ▸ (List.getElem?_eq_some.mp hti).1
      by_cases hr : (c.inst.map (fun cv => cv.ready)).getD false = true
      · rw [if_pos hr] at hs
        injection hs with hc
        subst hc
        obtain ⟨hset, hinst, hfin⟩ := ready_facts h hr
        refine ⟨by simp [h.tlen], h.llen, h.promiseIff, h.instEq, h.callsEq, ?_,
          h.initiatorIff, h.initiatorLt, h.logsOther, h.logsInit⟩
        intro j r hj
        simp only [List.getElem?_set] at hj
        by_cases hij : i = j
        · subst hij
          rw [if_pos rfl, if_pos (h.tlen ▸ hilt)] at hj
          injection hj with hj
          cases hj
          exact ⟨hset, by rw [hinst]; simp [hfin]⟩
        · rw [if_neg hij] at hj
          exact h.doneInv j r hj
      · rw [if_neg hr] at hs
        by_cases hp : c.promiseSet = true
        · rw [if_pos hp] at hs
          injection hs with hc
          subst hc
          refine ⟨by simp [h.tlen], h.llen, h.promiseIff, h.instEq, h.callsEq, ?_,
            h.initiatorIff, h.initiatorLt, h.logsOther, h.logsInit⟩
          intro j r hj
          simp only [List.getElem?_set] at hj
          by_cases hij : i = j
          · subst hij
            rw [if_pos rfl] at hj
            split at hj <;> cases hj
          · rw [if_neg hij] at hj
            exact h.doneInv j r hj
        · rw [if_neg hp] at hs
          injection hs with hc
          subst hc
          have hnc : c.istate = IState.notCreated := by
            by_contra hne
            exact hp (h.promiseIff.mpr hne)
          refine ⟨by simp [h.tlen], h.llen, by simp, ?_, ?_, ?_, by simp, ?_, ?_, ?_⟩
          · rw [h.instEq, hnc]; simp [instOf]
          · rw [h.callsEq, hnc]; simp [initCallsOf]
          · intro j r hj
            simp only [List.getElem?_set] at hj
            by_cases hij : i = j
            · subst hij
              rw [if_pos rfl] at hj
              split at hj <;> cases hj
            · rw [if_neg hij] at hj
              have := (h.doneInv j r hj).1
              rw [hnc] at this
              cases this
          · intro j hj
            injection hj with hj
            subst hj
            exact hilt
          · intro j lj hlj hne
            have hnone : c.initiator = none := h.initiatorIff.mpr hnc
            exact h.logsOther j lj hlj (by rw [hnone]; simp)
          · intro j lj hj hlj
            have hnone : c.initiator = none := h.initiatorIff.mpr hnc
            have hempty : lj = [] :=
              h.logsOther j lj hlj (by rw [hnone]; simp)
            subst hempty
            simp [pendingOf]

/-- Preservation of the invariant by an `importDone` step. -/
theorem inv_importDone {beh : EngineBeh} {N : Nat} {c c' : MConfig}
    (h : MInv beh N c) (hs : step beh c Act.importDone = some c') :
    MInv beh N c' := by
  simp only [step] at hs
  cases hst : c.istate with
  | notCreated => rw [hst] at hs; cases hs
  | running rest => rw [hst] at hs; cases hs
  | settled => rw [hst] at hs; cases hs
  | importing =>
    rw [hst] at hs
    injection hs with hc
    subst hc
    refine ⟨h.tlen, h.llen, ?_, by simp [instOf], ?_, ?_, ?_, h.initiatorLt, h.logsOther, ?_⟩
    · simp [h.promiseIff.mpr (by rw [hst]; simp)]
    · rw [h.callsEq, hst]; simp [initCallsOf]
    · intro j r hj
      have := (h.doneInv j r hj).1
      rw [hst] at this
      cases this
    · rw [h.initiatorIff, hst]
      simp
    · intro j lj hj hlj
      have := h.logsInit j lj hj hlj
      rw [hst] at this
      simpa [pendingOf] using this

/-- Preservation of the invariant by a `progress` step. -/
theorem inv_progress {beh : EngineBeh} {N : Nat} {c c' : MConfig}
    (h : MInv beh N c) (hs : step beh c Act.progress = some c') :
    MInv beh N c' := by
  simp only [step] at hs
  cases hst : c.istate with
  | notCreated => rw [hst] at hs; cases hs
  | importing => rw [hst] at hs; cases hs
  | settled => rw [hst] at hs; cases hs
  | running rest =>
    rw [hst] at hs
    cases rest with
    | nil => cases hs
    | cons e tail =>
      cases hin : c.initiator with
      | none => rw [hin] at hs; cases hs
      | some j =>
        rw [hin] at hs
        dsimp only at hs
        cases hlj : c.logs[j]? with
        | none => rw [hlj] at hs; cases hs
        | some lj =>
          rw [hlj] at hs
          injection hs with hc
          subst hc
          have hjlt : j < c.logs.length := (List.getElem?_eq_some.mp hlj).1
          refine ⟨h.tlen, by simp [h.llen], ?_, ?_, ?_, ?_, ?_, ?_, ?_, ?_⟩
          · simp [h.promiseIff.mpr (by rw [hst]; simp)]
          · rw [h.instEq, hst]; simp [instOf]
          · rw [h.callsEq, hst]; simp [initCallsOf]
          · intro i r hi
            have := (h.doneInv i r hi).1
            rw [hst] at this
            cases this
          · simp
          · intro j2 hj2
            simp only at hj2
            injection hj2 with hj2
            subst hj2
            exact h.initiatorLt j hin
          · intro j2 lj2 hlj2 hne
            simp only at hlj2 hne
            have hne2 : j ≠ j2 := by
              intro he
              exact hne (by rw [he])
            rw [List.getElem?_set, if_neg hne2] at hlj2
            exact h.logsOther j2 lj2 hlj2 (by rw [hin]; simpa using hne2)
          · intro j2 lj2 hj2 hlj2
            simp only at hj2 hlj2
            injection hj2 with hj2
            subst hj2
            rw [List.getElem?_set, if_pos rfl, if_pos hjlt] at hlj2
            injection hlj2 with hlj2
            subst hlj2
            have := h.logsInit j lj hin hlj
            rw [hst] at this
            simp only [pendingOf] at this ⊢
            rw [List.append_assoc]
            simpa using this

/-- Preservation of the invariant by a `settle` step. -/
theorem inv_settle {beh : EngineBeh} {N : Nat} {c c' : MConfig}
    (h : MInv beh N c) (hs : step beh c Act.settle = some c') :
    MInv beh N c' := by
  simp only [step] at hs
  cases hst : c.istate with
  | notCreated => rw [hst] at hs; cases hs
  | importing => rw [hst] at hs; cases hs
  | settled => rw [hst] at hs; cases hs
  | running rest =>
    rw [hst] at hs
    cases rest with
    | cons e tail => cases hs
    | nil =>
      injection hs with hc
      subst hc
      have hinst : c.inst = some ⟨0, false⟩ := by rw [h.instEq, hst]; simp [instOf]
      refine ⟨h.tlen, h.llen, ?_, ?_, ?_, ?_, ?_, h.initiatorLt, h.logsOther, ?_⟩
      · simp [h.promiseIff.mpr (by rw [hst]; simp)]
      · rw [hinst]
        cases hout : beh.initOutcome <;>
          simp [instOf, outcomeReady, hout]
      · rw [h.callsEq, hst]; simp [initCallsOf]
      · intro i r hi
        have := (h.doneInv i r hi).1
        rw [hst] at this
        cases this
      · rw [h.initiatorIff, hst]
        simp
      · intro j lj hj hlj
        have := h.logsInit j lj hj hlj
        rw [hst] at this
        simpa [pendingOf] using this

/-- Preservation of the invariant by a `resume` step. -/
theorem inv_resume {beh : EngineBeh} {N : Nat} {c c' : MConfig} {i : Nat}
    (h : MInv beh N c) (hs : step beh c (Act.resume i) = some c') :
    MInv beh N c' := by
  simp only [step] at hs
  cases hti : c.tasks[i]? with
  | none => rw [hti] at hs; cases hs
  | some t =>
    rw [hti] at hs
    cases t with
    | idle => cases hs
    | done r => cases hs
    | waiting =>
      cases hst : c.istate with
      | notCreated => rw [hst] at hs; cases hs
      | importing => rw [hst] at hs; cases hs
      | running rest => rw [hst] at hs; cases hs
      | settled =>
        rw [hst] at hs
        injection hs with hc
        subst hc
        have hinst : c.inst = some ⟨0, outcomeReady beh⟩ := by
          rw [h.instEq, hst]; simp [instOf]
        refine ⟨by simp [h.tlen], h.llen, ?_, ?_, ?_, ?_, ?_,
          h.initiatorLt, h.logsOther, ?_⟩
        · simp [h.promiseIff.mpr (by rw [hst]; simp)]
        · show c.inst = instOf beh IState.settled
          rw [h.instEq, hst]
        · show c.initCalls = initCallsOf IState.settled
          rw [h.callsEq, hst]
        · intro j r hj
          simp only [List.getElem?_set] at hj
          by_cases hij : i = j
          · subst hij
            rw [if_pos rfl] at hj
            split at hj
            · injection hj with hj
              cases hj
              refine ⟨rfl, ?_⟩
              rw [hinst]
              cases hout : beh.initOutcome <;> simp [finalResult, hout]
            · cases hj
          · rw [if_neg hij] at hj
            refine ⟨rfl, (h.doneInv j r hj).2⟩
        · show c.initiator = none ↔ IState.settled = IState.notCreated
          rw [h.initiatorIff, hst]
        · intro j lj hj hlj
          have := h.logsInit j lj hj hlj
          rw [hst] at this
          simpa [pendingOf, hst] using this

/-- Preservation of the invariant by any step. -/
theorem inv_step {beh : EngineBeh} {N : Nat} {c c' : MConfig} {a : Act}
    (h : MInv beh N c) (hs : step beh c a = some c') : MInv beh N c' := by
  cases a with
  | start i => exact inv_start h hs
  | importDone => exact inv_importDone h hs
  | progress => exact inv_progress h hs
  | settle => exact inv_settle h hs
  | resume i => exact inv_resume h hs

/-- Preservation of the invariant along any action list. -/
theorem inv_runFrom {beh : EngineBeh} {N : Nat} {acts : List Act} :
    ∀ {c c' : MConfig}, MInv beh N c → runFrom beh c acts = some c' →
      MInv beh N c' := by
  induction acts with
  | nil =>
      intro c c' h hr
      injection hr with hr
      exact hr ▸ h
  | cons a rest ih =>
      intro c c' h hr
      rw [runFrom, List.foldlM_cons] at hr
      cases hstep : step beh c a with
      | none => rw [hstep] at hr; cases hr
      | some c2 =>
          rw [hstep] at hr
          exact ih (inv_step h hstep) hr

/-- Every configuration reachable from `Unrequested` satisfies the
invariant. -/
theorem inv_run {beh : EngineBeh} {N : Nat} {acts : List Act} {c : MConfig}
    (hr : run beh N acts = some c) : MInv beh N c :=
  inv_runFrom (inv_init beh N) hr

/-- Action lists: `m` successive `start` actions for callers `k, k+1, …`. -/
def startActs : Nat → Nat → List Act
  | _, 0 => []
  | k, m + 1 => Act.start k :: startActs (k + 1) m

/-- Action lists: `m` successive `resume` actions for callers `k, k+1, …`. -/
def resumeActs : Nat → Nat → List Act
  | _, 0 => []
  | k, m + 1 => Act.resume k :: resumeActs (k + 1) m

/-- Splitting a run over an append of action lists. -/
theorem runFrom_append (beh : EngineBeh) (c : MConfig) (l1 l2 : List Act) :
    runFrom beh c (l1 ++ l2) =
      (runFrom beh c l1).bind (fun c2 => runFrom beh c2 l2) :=
  List.foldlM_append ..

/-- Configuration after the first `k` callers started (`k ≥ 1`) and `m` have
not, while the import is still pending. -/
def cfgA (k m L : Nat) : MConfig :=
  ⟨true, none, IState.importing, 0, some 0,
    List.replicate k TaskState.waiting ++ List.replicate m TaskState.idle,
    List.replicate L []⟩

/-- The first `start` creates the promise and suspends caller `0`. -/
theorem sched_start0 (beh : EngineBeh) (m : Nat) :
    step beh (initConfig (m + 1)) (Act.start 0) = some (cfgA 1 m (m + 1)) := by
  simp [step, initConfig, cfgA, List.replicate_succ]

/-- Later `start`s attach to the pending promise. -/
theorem sched_attach (beh : EngineBeh) (L : Nat) :
    ∀ (m k : Nat),
      runFrom beh (cfgA (k + 1) m L) (startActs (k + 1) m) =
        some (cfgA (k + 1 + m) 0 L) := by
  intro m
  induction m with
  | zero => intro k; rfl
  | succ m ih =>
      intro k
      rw [startActs, runFrom, List.foldlM_cons]
      have hstep : step beh (cfgA (k + 1) (m + 1) L) (Act.start (k + 1)) =
          some (cfgA (k + 2) m L) := by
        have hget : (cfgA (k + 1) (m + 1) L).tasks[k + 1]? = some TaskState.idle := by
          show (List.replicate (k + 1) TaskState.waiting ++
            List.replicate (m + 1) TaskState.idle)[k + 1]? = some TaskState.idle
          rw [List.getElem?_append_right (by simp)]
          simp [List.getElem?_replicate]
        simp only [step, hget]
        have hset : ((List.replicate (k + 1) TaskState.waiting ++
            List.replicate (m + 1) TaskState.idle).set (k + 1) TaskState.waiting)
            = List.replicate (k + 2) TaskState.waiting ++
              List.replicate m TaskState.idle := by
          have hsl := set_append_len (List.replicate (k + 1) TaskState.waiting)
            (List.replicate (m + 1) TaskState.idle) TaskState.waiting
          simp only [List.length_replicate] at hsl
          rw [hsl]
          rw [List.replicate_succ' (k + 1) TaskState.waiting]
          simp [List.replicate_succ, List.append_assoc]
        simp [cfgA, hset]
      rw [hstep]
      show runFrom beh (cfgA (k + 2) m L) (startActs (k + 2) m) = _
      rw [ih (k + 1)]
      have harith : k + 1 + 1 + m = k + 1 + (m + 1) := by omega
      rw [harith]

/-- Configuration while `initialize` runs: events `acc` delivered to the
initiator, `rest` still pending, all `m + 1` callers waiting. -/
def cfgC (acc rest : List (ℚ × List Char)) (m : Nat) : MConfig :=
  ⟨true, some ⟨0, false⟩, IState.running rest, 1, some 0,
    List.replicate (m + 1) TaskState.waiting, acc :: List.replicate m []⟩

/-- The import completes and `initialize` is invoked. -/
theorem sched_importDone (beh : EngineBeh) (m : Nat) :
    step beh (cfgA (m + 1) 0 (m + 1)) Act.importDone =
      some (cfgC [] beh.initEvents m) := by
  simp [step, cfgA, cfgC, List.replicate_succ]

/-- Delivering all pending progress events to the initiator's callback. -/
theorem sched_progress (beh : EngineBeh) (m : Nat) :
    ∀ (rest acc : List (ℚ × List Char)),
      runFrom beh (cfgC acc rest m) (List.replicate rest.length Act.progress) =
        some (cfgC (acc ++ rest) [] m) := by
  intro rest
  induction rest with
  | nil => intro acc; simp [runFrom]
  | cons e tail ih =>
      intro acc
      rw [List.length_cons, List.replicate_succ, runFrom, List.foldlM_cons]
      have hstep : step beh (cfgC acc (e :: tail) m) Act.progress =
          some (cfgC (acc ++ [e]) tail m) := by
        simp [step, cfgC]
      rw [hstep]
      show runFrom beh (cfgC (acc ++ [e]) tail m) _ = _
      rw [ih (acc ++ [e])]
      simp [List.append_assoc]

/-- Configuration after the promise settles. -/
def cfgD (beh : EngineBeh) (m : Nat) : MConfig :=
  ⟨true, some ⟨0, outcomeReady beh⟩, IState.settled, 1, some 0,
    List.replicate (m + 1) TaskState.waiting, beh.initEvents :: List.replicate m []⟩

/-- The initialization settles. -/
theorem sched_settle (beh : EngineBeh) (m : Nat) :
    step beh (cfgC beh.initEvents [] m) Act.settle = some (cfgD beh m) := by
  cases hout : beh.initOutcome <;>
    simp [step, cfgC, cfgD, outcomeReady, hout]

/-- Setting position `k` of `replicate k x ++ replicate (m+1) y` to `x`
extends the left block. -/
theorem repl_set {α : Type} (x y : α) (k m : Nat) :
    (List.replicate k x ++ List.replicate (m + 1) y).set k x =
      List.replicate (k + 1) x ++ List.replicate m y := by
  have hsl := set_append_len (List.replicate k x) (List.replicate (m + 1) y) x
  simp only [List.length_replicate] at hsl
  rw [hsl, List.replicate_succ' k x]
  simp [List.replicate_succ, List.append_assoc]

/-- Configuration after the first `k` callers resumed, `m` still waiting. -/
def cfgE (beh : EngineBeh) (k m : Nat) (lg : List (List (ℚ × List Char))) : MConfig :=
  ⟨true, some ⟨0, outcomeReady beh⟩, IState.settled, 1, some 0,
    List.replicate k (TaskState.done (finalResult beh)) ++
      List.replicate m TaskState.waiting, lg⟩

/-- All waiting callers resume after settlement, observing the shared
result. -/
theorem sched_resume (beh : EngineBeh) (lg : List (List (ℚ × List Char))) :
    ∀ (m k : Nat),
      runFrom beh (cfgE beh k m lg) (resumeActs k m) =
        some (cfgE beh (k + m) 0 lg) := by
  intro m
  induction m with
  | zero => intro k; rfl
  | succ m ih =>
      intro k
      rw [resumeActs, runFrom, List.foldlM_cons]
      have hget : (List.replicate k (TaskState.done (finalResult beh)) ++
          List.replicate (m + 1) TaskState.waiting)[k]? = some TaskState.waiting := by
        rw [List.getElem?_append_right (by simp)]
        simp [List.getElem?_replicate]
      have hstep : step beh (cfgE beh k (m + 1) lg) (Act.resume k) =
          some (cfgE beh (k + 1) m lg) := by
        cases hout : beh.initOutcome with
        | ok u =>
            simp only [step, cfgE, hout]
            rw [show (Except.ok 0 : Except (List Char) Nat) = finalResult beh by
              simp [finalResult, hout]]
            rw [repl_set, hget]
        | error e =>
            simp only [step, cfgE, hout]
            rw [show (Except.error e : Except (List Char) Nat) = finalResult beh by
              simp [finalResult, hout]]
            rw [repl_set, hget]
      rw [hstep]
      show runFrom beh (cfgE beh (k + 1) m lg) (resumeActs (k + 1) m) = _
      rw [ih (k + 1)]
      have harith : k + 1 + m = k + (m + 1) := by omega
      rw [harith]

/-- Running a single action. -/
theorem runFrom_single (beh : EngineBeh) (c : MConfig) (a : Act) :
    runFrom beh c [a] = step beh c a := by
  cases h : step beh c a <;> simp [runFrom, h]

/-- A fair schedule: all callers start, the import completes, all progress
events are delivered, the promise settles, all callers resume. -/
def schedule (beh : EngineBeh) (N : Nat) : List Act :=
  Act.start 0 :: (startActs 1 (N - 1) ++ [Act.importDone] ++
    List.replicate beh.initEvents.length Act.progress ++ [Act.settle] ++
    resumeActs 0 N)

/-- The fair schedule drives every caller to completion. -/
theorem schedule_completes (beh : EngineBeh) (m : Nat) :
    run beh (m + 2) (schedule beh (m + 2)) =
      some (cfgE beh (m + 2) 0 (beh.initEvents :: List.replicate (m + 1) [])) := by
  rw [run, schedule]
  show runFrom beh (initConfig (m + 2)) _ = _
  rw [runFrom, List.foldlM_cons, sched_start0 beh (m + 1)]
  show (runFrom beh (cfgA 1 (m + 1) (m + 2))
    (startActs 1 (m + 1) ++ [Act.importDone] ++
      List.replicate beh.initEvents.length Act.progress ++ [Act.settle] ++
      resumeActs 0 (m + 2))) = _
  rw [List.append_assoc, List.append_assoc, List.append_assoc, runFrom_append]
  have hA := sched_attach beh (m + 2) (m + 1) 0
  rw [hA]
  have h1m : 0 + 1 + (m + 1) = m + 2 := by omega
  rw [h1m]
  rw [Option.some_bind, runFrom_append, runFrom_single, sched_importDone beh (m + 1)]
  rw [Option.some_bind, runFrom_append]
  have hC := sched_progress beh (m + 1) beh.initEvents []
  rw [hC]
  simp only [List.nil_append]
  rw [Option.some_bind, runFrom_append, runFrom_single, sched_settle beh (m + 1)]
  rw [Option.some_bind]
  have hD : cfgD beh (m + 1) =
      cfgE beh 0 (m + 2) (beh.initEvents :: List.replicate (m + 1) []) := rfl
  rw [hD]
  have hE := sched_resume beh (beh.initEvents :: List.replicate (m + 1) []) (m + 2) 0
  rw [hE, Nat.zero_add]

end Machine

/-- C1: for any number `N ≥ 2` of concurrent `getConverter` calls issued
while the engine is `Unrequested` (both module variables null), (a) every
reachable configuration has run `converterInstance.initialize` at most once;
(b) whenever all `N` calls have completed, `initialize` ran exactly once and
every call observed the same result (the single instance on success, the same
rejection reason on failure); (c) a fair schedule exists under which all `N`
calls complete with that shared result. -/
theorem c1_single_flight (beh : EngineBeh) (N : Nat) (hN : 2 ≤ N) :
    (∀ (acts : List Machine.Act) (c : Machine.MConfig),
        Machine.run beh N acts = some c → c.initCalls ≤ 1) ∧
    (∀ (acts : List Machine.Act) (c : Machine.MConfig),
        Machine.run beh N acts = some c →
        (∀ i, i < N → ∃ r, c.tasks[i]? = some (Machine.TaskState.done r)) →
        c.initCalls = 1 ∧
          ∀ i, i < N →
            c.tasks[i]? = some (Machine.TaskState.done (Machine.finalResult beh))) ∧
    (∃ (acts : List Machine.Act) (c : Machine.MConfig),
        Machine.run beh N acts = some c ∧
        ∀ i, i < N →
          c.tasks[i]? = some (Machine.TaskState.done (Machine.finalResult beh))) := by
  refine ⟨?_, ?_, ?_⟩
  · intro acts c h
    have inv := Machine.inv_run h
    rw [inv.callsEq]
    cases c.istate <;> simp [Machine.initCallsOf]
  · intro acts c h hdone
    have inv := Machine.inv_run h
    obtain ⟨r0, h0⟩ := hdone 0 (by omega)
    have hsettled := (inv.doneInv 0 r0 h0).1
    constructor
    · rw [inv.callsEq, hsettled]
      rfl
    · intro i hi
      obtain ⟨r, hr⟩ := hdone i hi
      have := (inv.doneInv i r hr).2
      rw [hr, this]
  · obtain ⟨m, rfl⟩ : ∃ m, N = m + 2 := ⟨N - 2, by omega⟩
    refine ⟨Machine.schedule beh (m + 2),
      Machine.cfgE beh (m + 2) 0 (beh.initEvents :: List.replicate (m + 1) []),
      Machine.schedule_completes beh m, ?_⟩
    intro i hi
    show (List.replicate (m + 2) (Machine.TaskState.done (Machine.finalResult beh)) ++
      List.replicate 0 Machine.TaskState.waiting)[i]? = _
    rw [List.getElem?_append, if_pos (by simpa using hi)]
    simp [List.getElem?_replicate, hi]

/-- Witness for C1 at `N = 2` and a concrete engine behaviour. -/
theorem c1_single_flight_witness :
    (∀ (acts : List Machine.Act) (c : Machine.MConfig),
        Machine.run ⟨[], Except.ok ()⟩ 2 acts = some c → c.initCalls ≤ 1) ∧
    (∀ (acts : List Machine.Act) (c : Machine.MConfig),
        Machine.run ⟨[], Except.ok ()⟩ 2 acts = some c →
        (∀ i, i < 2 → ∃ r, c.tasks[i]? = some (Machine.TaskState.done r)) →
        c.initCalls = 1 ∧
          ∀ i, i < 2 →
            c.tasks[i]? =
              some (Machine.TaskState.done (Machine.finalResult ⟨[], Except.ok ()⟩))) ∧
    (∃ (acts : List Machine.Act) (c : Machine.MConfig),
        Machine.run ⟨[], Except.ok ()⟩ 2 acts = some c ∧
        ∀ i, i < 2 →
          c.tasks[i]? =
            some (Machine.TaskState.done (Machine.finalResult ⟨[], Except.ok ()⟩))) :=
  c1_single_flight ⟨[], Except.ok ()⟩ 2 (by decide)

/-- A failing engine behaviour: initialization rejects with message
`boom`. -/
def behFail : EngineBeh := ⟨[], Except.error "boom".data⟩

/-- Schedule in which caller `0` acquires and fails, then caller `1` issues a
fresh, subsequent `getConverter` call. -/
def c2acts : List Machine.Act :=
  [Machine.Act.start 0, Machine.Act.importDone, Machine.Act.settle,
   Machine.Act.resume 0, Machine.Act.start 1, Machine.Act.resume 1]

/-- C2 counterexample: after `initialize` fails once, the first caller
observes the failure; a subsequent `getConverter` call does not retry from
`Unrequested` — `initialize` is still executed only once (`initCalls = 1`)
and the second call observes the identical cached rejection. -/
theorem c2_counterexample :
    (Machine.run behFail 2 (List.take 4 c2acts)).map
        (fun c => (c.initCalls, c.tasks)) =
      some (1, [Machine.TaskState.done (Except.error "boom".data),
                Machine.TaskState.idle]) ∧
    (Machine.run behFail 2 c2acts).map (fun c => (c.initCalls, c.tasks)) =
      some (1, [Machine.TaskState.done (Except.error "boom".data),
                Machine.TaskState.done (Except.error "boom".data)]) := by
  constructor <;> decide

/-- C2 amended: after a failed initialization the memoized `converterPromise`
is never cleared, so every `getConverter` call that completes — including
calls issued after the failure — observes the same cached rejection, and
`initialize` never runs a second time: the `Failed` state is sticky. -/
theorem c2_failure_sticky (beh : EngineBeh) (e : List Char) (N : Nat)
    (acts : List Machine.Act) (c : Machine.MConfig) (i : Nat)
    (r : Except (List Char) Nat)
    (hout : beh.initOutcome = Except.error e)
    (hrun : Machine.run beh N acts = some c)
    (hdone : c.tasks[i]? = some (Machine.TaskState.done r)) :
    c.initCalls ≤ 1 ∧ r = Except.error e := by
  have inv := Machine.inv_run hrun
  constructor
  · rw [inv.callsEq]
    cases c.istate <;> simp [Machine.initCallsOf]
  · have := (inv.doneInv i r hdone).2
    rw [this, Machine.finalResult, hout]

/-- The configuration reached by `c2acts`. -/
def c2cfg : Machine.MConfig :=
  ⟨true, some ⟨0, false⟩, Machine.IState.settled, 1, some 0,
    [Machine.TaskState.done (Except.error "boom".data),
     Machine.TaskState.done (Except.error "boom".data)], [[], []]⟩

/-- Witness for the amended C2 at the concrete failing run. -/
theorem c2_failure_sticky_witness :
    c2cfg.initCalls ≤ 1 ∧
      (Except.error "boom".data : Except (List Char) Nat) =
        Except.error "boom".data :=
  c2_failure_sticky behFail "boom".data 2 c2acts c2cfg 1
    (Except.error "boom".data) rfl (by decide) (by decide)

/-- An engine behaviour with one sub-progress event and successful
initialization. -/
def behEvt : EngineBeh := ⟨[(50, "loading".data)], Except.ok ()⟩

/-- Schedule in which caller `1` attaches while the initialization is already
pending, before any progress event is delivered. -/
def c5acts : List Machine.Act :=
  [Machine.Act.start 0, Machine.Act.start 1, Machine.Act.importDone,
   Machine.Act.progress, Machine.Act.settle,
   Machine.Act.resume 0, Machine.Act.resume 1]

/-- C5 counterexample: caller `1` attaches while the initialization is in
flight (both callers waiting before the progress event is delivered), yet the
sub-progress notification reaches only the initiating caller's `onProgress`:
caller `1` completes with an empty progress log. -/
theorem c5_counterexample :
    (Machine.run behEvt 2 (List.take 2 c5acts)).map
        (fun c => (c.istate, c.tasks)) =
      some (Machine.IState.importing,
        [Machine.TaskState.waiting, Machine.TaskState.waiting]) ∧
    (Machine.run behEvt 2 c5acts).map (fun c => (c.logs, c.tasks)) =
      some ([[(50, "loading".data)], []],
        [Machine.TaskState.done (Except.ok 0),
         Machine.TaskState.done (Except.ok 0)]) := by
  constructor <;> decide

/-- C5 amended: sub-progress notifications received during initialization are
forwarded only to the `onProgress` callback of the caller that initiated the
initialization; every other caller — in particular one that attached while
the state was already `Initializing` — receives none. -/
theorem c5_only_initiator_notified (beh : EngineBeh) (N : Nat)
    (acts : List Machine.Act) (c : Machine.MConfig) (j : Nat)
    (hrun : Machine.run beh N acts = some c)
    (hnotinit : c.initiator ≠ some j) :
    c.logs[j]? = some [] ∨ c.logs[j]? = none := by
  have inv := Machine.inv_run hrun
  cases hlj : c.logs[j]? with
  | none => exact Or.inr rfl
  | some lj =>
      exact Or.inl (by rw [inv.logsOther j lj hlj hnotinit])

/-- The configuration reached by `c5acts`. -/
def c5cfg : Machine.MConfig :=
  ⟨true, some ⟨0, true⟩, Machine.IState.settled, 1, some 0,
    [Machine.TaskState.done (Except.ok 0), Machine.TaskState.done (Except.ok 0)],
    [[(50, "loading".data)], []]⟩

/-- Witness for the amended C5 at the concrete run: the attaching caller's
log is empty. -/
theorem c5_only_initiator_notified_witness :
    c5cfg.logs[1]? = some [] ∨ c5cfg.logs[1]? = none :=
  c5_only_initiator_notified behEvt 2 c5acts c5cfg 1 (by decide) (by decide)

/-- A healthy engine behaviour: no progress events, successful
initialization. -/
def behOk : EngineBeh := ⟨[], Except.ok ()⟩

/-- C7: for every input whose file count is not exactly 1, `process` returns
the `INVALID_OPTIONS` error, emits no progress, performs no engine call, and
leaves the shared module state unchanged. -/
theorem c7_wrong_arity (fmt : Format) (beh : EngineBeh)
    (conv : Except (List Char) Nat) (r1 r2 : Bool) (g : Globals)
    (files : List FileRec) (h : files.length ≠ 1) :
    process fmt beh conv r1 r2 g files =
      ⟨ProcessOutput.error PDFErrorCode.INVALID_OPTIONS fmt.arityMessage
          (some ("Received ".data ++ (Nat.repr files.length).data ++ " file(s).".data)),
        [], g, []⟩ := by
  match files with
  | [] => rfl
  | [f] => simp at h
  | a :: b :: t => rfl

/-- Witness for C7 at an empty file list. -/
theorem c7_wrong_arity_witness :
    ([] : List FileRec).length ≠ 1 ∧
      process pptxFormat behOk (Except.ok 7) false false ⟨none, none⟩ [] =
        ⟨ProcessOutput.error PDFErrorCode.INVALID_OPTIONS pptxFormat.arityMessage
            (some ("Received ".data ++
              (Nat.repr ([] : List FileRec).length).data ++ " file(s).".data)),
          [], ⟨none, none⟩, []⟩ :=
  ⟨by decide,
    c7_wrong_arity pptxFormat behOk (Except.ok 7) false false ⟨none, none⟩ []
      (by decide)⟩

/-- C8: for every single-file input whose lower-cased last dot-separated name
segment is not in the format's accepted set, `process` returns the
`FILE_TYPE_INVALID` error, emits no progress, performs no engine call, and
leaves the shared module state unchanged. -/
theorem c8_bad_extension (fmt : Format) (beh : EngineBeh)
    (conv : Except (List Char) Nat) (r1 r2 : Bool) (g : Globals) (file : FileRec)
    (h : fmt.validExts.contains ((lastSegment file.name).map Char.toLower) = false) :
    process fmt beh conv r1 r2 g [file] =
      ⟨ProcessOutput.error PDFErrorCode.FILE_TYPE_INVALID fmt.typeMessage
          (some ("Received: ".data ++ (if file.type.isEmpty then file.name else file.type))),
        [], g, []⟩ := by
  simp only [process, h]
  simp

/-- Witness for C8 at a `.txt` file given to the PPTX processor. -/
theorem c8_bad_extension_witness :
    pptxFormat.validExts.contains
        ((lastSegment ("slides.txt".data)).map Char.toLower) = false ∧
      process pptxFormat behOk (Except.ok 7) false false ⟨none, none⟩
          [⟨"slides.txt".data, "text/plain".data⟩] =
        ⟨ProcessOutput.error PDFErrorCode.FILE_TYPE_INVALID pptxFormat.typeMessage
            (some ("Received: ".data ++
              (if ("text/plain".data : List Char).isEmpty
               then "slides.txt".data else "text/plain".data))),
          [], ⟨none, none⟩, []⟩ :=
  ⟨by decide,
    c8_bad_extension pptxFormat behOk (Except.ok 7) false false ⟨none, none⟩
      ⟨"slides.txt".data, "text/plain".data⟩ (by decide)⟩

/-- JavaScript `converterInstance?.isReady()` on the module state. -/
def isReadyInstance (g : Globals) : Bool :=
  (g.converterInstance.map (fun c => c.ready)).getD false

/-- Module-level states reachable in the sequential view: `Unrequested`
(both variables null), or settled with the instance present and ready exactly
on success. -/
inductive WFGlobals : Globals → Prop where
  | unrequested : WFGlobals ⟨none, none⟩
  | ok : WFGlobals ⟨some (Except.ok ()), some ⟨0, true⟩⟩
  | failed (e : List Char) : WFGlobals ⟨some (Except.error e), some ⟨0, false⟩⟩

/-- If an acquisition succeeds on a well-formed module state, the state it
leaves behind has a ready instance. -/
theorem ready_of_acquire_ok {beh : EngineBeh} {g : Globals} {cv : Conv}
    (hwf : WFGlobals g) (hok : (getConverter beh g).result = Except.ok cv) :
    isReadyInstance (getConverter beh g).globals = true := by
  cases hwf with
  | unrequested =>
      cases hout : beh.initOutcome with
      | ok u => simp [getConverter, awaitMemo, isReadyInstance, hout]
      | error e =>
          rw [getConverter] at hok
          simp [awaitMemo, hout] at hok
  | ok => simp [getConverter, isReadyInstance]
  | failed e =>
      rw [getConverter] at hok
      simp [awaitMemo] at hok

/-- Whenever validation passes, `process` leaves the module state exactly as
`getConverter` left it, on every path. -/
theorem process_globals (fmt : Format) (beh : EngineBeh)
    (conv : Except (List Char) Nat) (r1 r2 : Bool) (g : Globals) (file : FileRec)
    (hext : fmt.validExts.contains ((lastSegment file.name).map Char.toLower) = true) :
    (process fmt beh conv r1 r2 g [file]).globals = (getConverter beh g).globals := by
  simp only [process, hext]
  cases (getConverter beh g).result <;> cases r1 <;> cases conv <;> cases r2 <;> simp

/-- C6: if cancellation is observed at the checkpoint right after a
successful engine acquisition, `process` returns the `PROCESSING_CANCELLED`
error, and the shared module state is exactly the state the acquisition
produced — identical to the state of an uncancelled run — and is `Ready`;
cancelling one operation never cancels or resets the shared engine. -/
theorem c6_cancellation_is_local (fmt : Format) (beh : EngineBeh)
    (conv : Except (List Char) Nat) (r2 : Bool) (g : Globals) (file : FileRec)
    (cv : Conv) (hwf : WFGlobals g)
    (hext : fmt.validExts.contains ((lastSegment file.name).map Char.toLower) = true)
    (hok : (getConverter beh g).result = Except.ok cv) :
    (process fmt beh conv true r2 g [file]).output =
        ProcessOutput.error PDFErrorCode.PROCESSING_CANCELLED cancelledMessage none ∧
      (process fmt beh conv true r2 g [file]).globals =
        (getConverter beh g).globals ∧
      (process fmt beh conv true r2 g [file]).globals =
        (process fmt beh conv false r2 g [file]).globals ∧
      isReadyInstance (process fmt beh conv true r2 g [file]).globals = true := by
  refine ⟨?_, process_globals fmt beh conv true r2 g file hext, ?_, ?_⟩
  · simp only [process, hext, hok]
    simp
  · rw [process_globals fmt beh conv true r2 g file hext,
      process_globals fmt beh conv false r2 g file hext]
  · rw [process_globals fmt beh conv true r2 g file hext]
    exact ready_of_acquire_ok hwf hok

/-- Witness for C6: cancellation right after acquiring for `deck.pptx`. -/
theorem c6_cancellation_is_local_witness :
    WFGlobals ⟨none, none⟩ ∧
      pptxFormat.validExts.contains
        ((lastSegment ("deck.pptx".data)).map Char.toLower) = true ∧
      (getConverter behOk ⟨none, none⟩).result = Except.ok ⟨0, true⟩ ∧
      ((process pptxFormat behOk (Except.ok 7) true false ⟨none, none⟩
          [⟨"deck.pptx".data, []⟩]).output =
        ProcessOutput.error PDFErrorCode.PROCESSING_CANCELLED cancelledMessage none ∧
      (process pptxFormat behOk (Except.ok 7) true false ⟨none, none⟩
          [⟨"deck.pptx".data, []⟩]).globals =
        (getConverter behOk ⟨none, none⟩).globals ∧
      (process pptxFormat behOk (Except.ok 7) true false ⟨none, none⟩
          [⟨"deck.pptx".data, []⟩]).globals =
        (process pptxFormat behOk (Except.ok 7) false false ⟨none, none⟩
          [⟨"deck.pptx".data, []⟩]).globals ∧
      isReadyInstance (process pptxFormat behOk (Except.ok 7) true false ⟨none, none⟩
          [⟨"deck.pptx".data, []⟩]).globals = true) :=
  ⟨WFGlobals.unrequested, by decide, by decide,
    c6_cancellation_is_local pptxFormat behOk (Except.ok 7) false ⟨none, none⟩
      ⟨"deck.pptx".data, []⟩ ⟨0, true⟩ WFGlobals.unrequested (by decide) (by decide)⟩

/-- C9: every exception thrown during engine acquisition or conversion is
caught at the `try/catch` boundary of `process` and translated into the
`PROCESSING_FAILED` error whose detail carries the thrown error's message; no
such failure escapes `process` (the embedding is total: `process` always
returns a `ProcResult`). -/
theorem c9_failures_translated (fmt : Format) (beh : EngineBeh)
    (conv : Except (List Char) Nat) (r1 r2 : Bool) (g : Globals) (file : FileRec)
    (e : List Char) (cv : Conv)
    (hext : fmt.validExts.contains ((lastSegment file.name).map Char.toLower) = true)
    (hfail : (getConverter beh g).result = Except.error e ∨
      ((getConverter beh g).result = Except.ok cv ∧ r1 = false ∧
        conv = Except.error e)) :
    (process fmt beh conv r1 r2 g [file]).output =
      ProcessOutput.error PDFErrorCode.PROCESSING_FAILED fmt.failMessage (some e) := by
  cases hfail with
  | inl herr =>
      simp only [process, hext, herr]
      simp
  | inr hconv =>
      obtain ⟨hok, hr1, hcv⟩ := hconv
      subst hr1
      subst hcv
      simp only [process, hext, hok]
      simp

/-- Witness for C9: the engine's `initialize` rejects with `init failed`. -/
theorem c9_failures_translated_witness :
    rtfFormat.validExts.contains
        ((lastSegment ("note.rtf".data)).map Char.toLower) = true ∧
      ((getConverter ⟨[], Except.error "init failed".data⟩ ⟨none, none⟩).result =
          Except.error "init failed".data ∨
        ((getConverter ⟨[], Except.error "init failed".data⟩ ⟨none, none⟩).result =
            Except.ok ⟨0, true⟩ ∧ false = false ∧
          (Except.ok 7 : Except (List Char) Nat) = Except.error "init failed".data)) ∧
      (process rtfFormat ⟨[], Except.error "init failed".data⟩ (Except.ok 7)
          false false ⟨none, none⟩ [⟨"note.rtf".data, []⟩]).output =
        ProcessOutput.error PDFErrorCode.PROCESSING_FAILED rtfFormat.failMessage
          (some "init failed".data) :=
  ⟨by decide, Or.inl (by decide),
    c9_failures_translated rtfFormat ⟨[], Except.error "init failed".data⟩
      (Except.ok 7) false false ⟨none, none⟩ ⟨"note.rtf".data, []⟩
      "init failed".data ⟨0, true⟩ (by decide) (Or.inl (by decide))⟩

/-- Well-formedness of the per-operation progress state: all emitted percents
lie in `[0, 100]`, the running last percent does too, and the emitted percents
followed by the last percent form a non-decreasing chain. -/
def GoodOp (s : OpState) : Prop :=
  (∀ pm ∈ s.events, 0 ≤ pm.1 ∧ pm.1 ≤ 100) ∧ 0 ≤ s.lastPercent ∧
    s.lastPercent ≤ 100 ∧
    List.Chain' (· ≤ ·) ((s.events.map Prod.fst) ++ [s.lastPercent])

/-- The fresh state after `reset` is well formed. -/
theorem goodOp_init : GoodOp ⟨0, []⟩ := by
  refine ⟨by simp, le_refl 0, by norm_num, by simp⟩

/-- `updateProgress` preserves well-formedness for any raw percent at most
100 (the raw value may be arbitrarily low: the max clamp keeps the emission
monotone). -/
theorem goodOp_update {s : OpState} (h : GoodOp s) {p : ℚ} (hp : p ≤ 100)
    (m : List Char) : GoodOp (updateProgress p m s) := by
  obtain ⟨hall, h0, h100, hchain⟩ := h
  have hq0 : 0 ≤ max s.lastPercent p := le_trans h0 (le_max_left _ _)
  have hq100 : max s.lastPercent p ≤ 100 := max_le h100 hp
  refine ⟨?_, hq0, hq100, ?_⟩
  · intro pm hpm
    rw [updateProgress] at hpm
    simp only [List.mem_append, List.mem_singleton] at hpm
    cases hpm with
    | inl hin => exact hall pm hin
    | inr heq => rw [heq]; exact ⟨hq0, hq100⟩
  · rw [updateProgress]
    simp only [List.map_append, List.map_cons, List.map_nil]
    obtain ⟨hcE, hcl, hlink⟩ := List.chain'_append.mp hchain
    rw [List.append_assoc]
    refine List.chain'_append.mpr ⟨hcE, ?_, ?_⟩
    · simp [le_max_right]
    · intro x hx y hy
      simp only [List.singleton_append, List.head?_cons, Option.mem_def,
        Option.some.injEq] at hy
      subst hy
      exact le_trans (hlink x hx s.lastPercent (by simp)) (le_max_left _ _)

/-- Folding the acquisition sub-progress events through the phase mapping
preserves well-formedness. -/
theorem goodOp_fold (events : List (ℚ × List Char)) :
    ∀ {s : OpState}, GoodOp s →
      GoodOp (events.foldl
        (fun s pm => updateProgress (min (pm.1 * (4 / 5)) 80) pm.2 s) s) := by
  induction events with
  | nil => intro s h; exact h
  | cons e tail ih =>
      intro s h
      rw [List.foldl_cons]
      exact ih (goodOp_update h (le_trans (min_le_right _ _) (by norm_num)) e.2)

/-- Extracting the C3 statement from well-formedness. -/
theorem goodOp_events {s : OpState} (h : GoodOp s) :
    List.Chain' (· ≤ ·) (s.events.map Prod.fst) ∧
      ∀ pm ∈ s.events, 0 ≤ pm.1 ∧ pm.1 ≤ 100 :=
  ⟨(List.chain'_append.mp h.2.2.2).1, h.1⟩

/-- C3: within a single `process` call — for every engine behaviour, every
possible raw sub-progress feed, every cancellation pattern and every input —
the emitted progress percents are monotonically non-decreasing and every
emitted percent lies in `[0, 100]`. -/
theorem c3_progress_monotone_bounded (fmt : Format) (beh : EngineBeh)
    (conv : Except (List Char) Nat) (r1 r2 : Bool) (g : Globals)
    (files : List FileRec) :
    List.Chain' (· ≤ ·)
        (((process fmt beh conv r1 r2 g files).events).map Prod.fst) ∧
      ∀ pm ∈ (process fmt beh conv r1 r2 g files).events,
        0 ≤ pm.1 ∧ pm.1 ≤ 100 := by
  have g1 : GoodOp (updateProgress 5 loadingMessage ⟨0, []⟩) :=
    goodOp_update goodOp_init (by norm_num) _
  have g2 : GoodOp ((getConverter beh g).forwarded.foldl
      (fun s pm => updateProgress (min (pm.1 * (4 / 5)) 80) pm.2 s)
      (updateProgress 5 loadingMessage ⟨0, []⟩)) :=
    goodOp_fold _ g1
  have g3 := goodOp_update g2 (by norm_num : (85 : ℚ) ≤ 100) fmt.convertingMessage
  have g4 := goodOp_update g3 (by norm_num : (100 : ℚ) ≤ 100) doneMessage
  match files with
  | [] => simp [process]
  | a :: b :: t => simp [process]
  | [file] =>
      by_cases hext :
          fmt.validExts.contains ((lastSegment file.name).map Char.toLower) = true
      · simp only [process, hext]
        cases (getConverter beh g).result <;> cases r1 <;> cases conv <;>
          cases r2 <;> simp only [if_true, if_false] <;>
          first
            | exact goodOp_events g2
            | exact goodOp_events g3
            | exact goodOp_events g4
      · rw [Bool.not_eq_true] at hext
        have hmem : (lastSegment file.name).map Char.toLower ∉ fmt.validExts := by
          simpa using hext
        simp [process, hmem]

/-- Taking a positive number of elements preserves the head. -/
theorem head?_take_pos {α : Type} (l : List α) (n : Nat) (h : n ≠ 0) :
    (l.take n).head? = l.head? := by
  cases l with
  | nil => simp
  | cons a t =>
      cases n with
      | zero => exact absurd rfl h
      | succ m => simp

/-- The last element of an append ending in a cons. -/
theorem getLast?_append_cons {α : Type} (b : List α) (c : α) (e : List α) :
    (b ++ c :: e).getLast? = (c :: e).getLast? := by
  induction b with
  | nil => rfl
  | cons x xs ih =>
      rw [List.cons_append]
      cases hxs : xs ++ c :: e with
      | nil => exact absurd hxs (by simp)
      | cons y ys => rw [List.getLast?_cons_cons, ← hxs, ih]

/-- `split('.')` never returns the empty array. -/
theorem splitDot_ne_nil (l : List Char) : splitDot l ≠ [] := by
  cases l with
  | nil => simp [splitDot]
  | cons c rest =>
      rw [splitDot]
      by_cases hc : c = '.'
      · simp [hc]
      · rw [if_neg hc]
        cases splitDot rest <;> simp

/-- `split('.')` of a dot-free string is the singleton of that string. -/
theorem splitDot_no_dot (e : List Char) (h : '.' ∉ e) : splitDot e = [e] := by
  induction e with
  | nil => rfl
  | cons c rest ih =>
      rw [splitDot]
      have hc : ¬c = '.' := fun hc => h (by rw [hc]; exact List.mem_cons_self ..)
      rw [if_neg hc, ih (fun hm => h (List.mem_cons_of_mem c hm))]

/-- `split('.')` of `b ++ "." ++ e` for dot-free `e`: at least two segments,
the last of which is `e`. -/
theorem splitDot_append_dot (e : List Char) (he : '.' ∉ e) :
    ∀ b : List Char, 2 ≤ (splitDot (b ++ '.' :: e)).length ∧
      (splitDot (b ++ '.' :: e)).getLast? = some e := by
  intro b
  induction b with
  | nil =>
      rw [List.nil_append, splitDot, if_pos rfl, splitDot_no_dot e he]
      exact ⟨by simp, by rw [List.getLast?_cons_cons]; rfl⟩
  | cons c b' ih =>
      obtain ⟨ihlen, ihlast⟩ := ih
      rw [List.cons_append, splitDot]
      by_cases hc : c = '.'
      · rw [if_pos hc]
        refine ⟨by simp; omega, ?_⟩
        cases hsp : splitDot (b' ++ '.' :: e) with
        | nil => exact absurd hsp (splitDot_ne_nil _)
        | cons s ss =>
            rw [List.getLast?_cons_cons, ← hsp, ihlast]
      · rw [if_neg hc]
        cases hsp : splitDot (b' ++ '.' :: e) with
        | nil => exact absurd hsp (splitDot_ne_nil _)
        | cons s ss =>
            rw [hsp] at ihlen ihlast
            cases ss with
            | nil => simp at ihlen
            | cons s2 ss2 =>
                refine ⟨by simp, ?_⟩
                rw [List.getLast?_cons_cons]
                rw [List.getLast?_cons_cons] at ihlast
                exact ihlast

/-- The last dot-separated segment of `b ++ "." ++ e` for dot-free `e`. -/
theorem lastSegment_append_dot (b e : List Char) (he : '.' ∉ e) :
    lastSegment (b ++ '.' :: e) = e := by
  rw [lastSegment, List.getLastD_eq_getLast?, (splitDot_append_dot e he b).2]
  rfl

/-- The last dot-separated segment of a dot-free name is the whole name. -/
theorem lastSegment_no_dot (name : List Char) (h : '.' ∉ name) :
    lastSegment name = name := by
  rw [lastSegment, splitDot_no_dot name h]
  rfl

/-- The stripping regex alternative matches `b ++ "." ++ e` exactly when the
lower-cased `e` equals the alternative, and then strips to `b`. -/
theorem trySuffix_match (ext b e : List Char) (he : e.map Char.toLower = ext) :
    trySuffix ext (b ++ '.' :: e) = some b := by
  have hlen : e.length = ext.length := by rw [← he, List.length_map]
  have hr : (b ++ '.' :: e).reverse = (e.reverse ++ ['.']) ++ b.reverse := by
    rw [List.reverse_append, List.reverse_cons]
  have hklen : ext.length + 1 = (e.reverse ++ ['.']).length := by simp [hlen]
  simp only [trySuffix]
  rw [hr, hklen, List.take_left, List.drop_left, List.reverse_reverse]
  rw [if_pos]
  rw [List.map_append, List.map_reverse, he]
  simp

/-- The stripping regex alternative `A` fails on `b ++ "." ++ e` whenever the
lower-cased last character of `e` differs from the corresponding character of
the pattern. -/
theorem trySuffix_none_of_last (A B b e : List Char)
    (he : e.map Char.toLower = B) (hBne : B ≠ [])
    (hne : B.getLast? ≠ (A.reverse ++ ['.']).head?) :
    trySuffix A (b ++ '.' :: e) = none := by
  have hene : e ≠ [] := by
    intro h
    rw [h] at he
    exact hBne (by simpa using he.symm)
  simp only [trySuffix]
  rw [if_neg]
  intro hcond
  apply hne
  have h1 := congrArg List.head? hcond
  rw [List.head?_map, head?_take_pos _ _ (Nat.succ_ne_zero _)] at h1
  rw [List.head?_reverse, getLast?_append_cons] at h1
  have h2 : ('.' :: e).getLast? = e.getLast? := by
    cases e with
    | nil => exact absurd rfl hene
    | cons x e2 => rw [List.getLast?_cons_cons]
  rw [h2] at h1
  rw [← List.getLast?_map, he] at h1
  exact h1

/-- The stripping regex alternative fails on names shorter than the
pattern. -/
theorem trySuffix_none_of_short (ext name : List Char)
    (h : name.length < ext.length + 1) :
    trySuffix ext name = none := by
  simp only [trySuffix]
  rw [if_neg]
  intro hcond
  have := congrArg List.length hcond
  simp at this
  omega

/-- A name whose lower-casing avoids `'.'` contains no `'.'`. -/
theorem no_dot_of_map (e B : List Char) (he : e.map Char.toLower = B)
    (hB : '.' ∉ B) : '.' ∉ e := by
  intro hm
  have hlow : Char.toLower '.' = '.' := by decide
  exact hB (he ▸ hlow ▸ List.mem_map_of_mem Char.toLower hm)

/-- The PPTX stripping regex `/\.(pptx?|odp)$/i` strips exactly the accepted
extension. -/
theorem strip_pptx (b e : List Char)
    (he : e.map Char.toLower ∈ pptxFormat.stripExts) :
    stripFirst pptxFormat.stripExts (b ++ '.' :: e) = b := by
  simp only [pptxFormat, List.mem_cons, List.not_mem_nil, or_false] at he ⊢
  rcases he with h | h | h
  · simp [stripFirst, trySuffix_match _ _ _ h]
  · simp [stripFirst, trySuffix_none_of_last "pptx".data "ppt".data b e h
      (by decide) (by decide), trySuffix_match _ _ _ h]
  · simp [stripFirst, trySuffix_none_of_last "pptx".data "odp".data b e h
      (by decide) (by decide),
      trySuffix_none_of_last "ppt".data "odp".data b e h (by decide) (by decide),
      trySuffix_match _ _ _ h]

/-- The Word stripping regex `/\.(docx?|odt|rtf)$/i` strips exactly the
accepted extension. -/
theorem strip_word (b e : List Char)
    (he : e.map Char.toLower ∈ wordFormat.stripExts) :
    stripFirst wordFormat.stripExts (b ++ '.' :: e) = b := by
  simp only [wordFormat, List.mem_cons, List.not_mem_nil, or_false] at he ⊢
  rcases he with h | h | h | h
  · simp [stripFirst, trySuffix_match _ _ _ h]
  · simp [stripFirst, trySuffix_none_of_last "docx".data "doc".data b e h
      (by decide) (by decide), trySuffix_match _ _ _ h]
  · simp [stripFirst, trySuffix_none_of_last "docx".data "odt".data b e h
      (by decide) (by decide),
      trySuffix_none_of_last "doc".data "odt".data b e h (by decide) (by decide),
      trySuffix_match _ _ _ h]
  · simp [stripFirst, trySuffix_none_of_last "docx".data "rtf".data b e h
      (by decide) (by decide),
      trySuffix_none_of_last "doc".data "rtf".data b e h (by decide) (by decide),
      trySuffix_none_of_last "odt".data "rtf".data b e h (by decide) (by decide),
      trySuffix_match _ _ _ h]

/-- The RTF stripping regex `/\.rtf$/i` strips exactly the accepted
extension. -/
theorem strip_rtf (b e : List Char)
    (he : e.map Char.toLower ∈ rtfFormat.stripExts) :
    stripFirst rtfFormat.stripExts (b ++ '.' :: e) = b := by
  simp only [rtfFormat, List.mem_cons, List.not_mem_nil, or_false] at he ⊢
  simp [stripFirst, trySuffix_match _ _ _ he]

/-- On a healthy engine run without cancellation, `process` succeeds and
suggests the stripped name plus `.pdf`. -/
theorem process_success (fmt : Format) (beh : EngineBeh) (blob : Nat)
    (g : Globals) (file : FileRec) (cv : Conv)
    (hext : fmt.validExts.contains ((lastSegment file.name).map Char.toLower) = true)
    (hok : (getConverter beh g).result = Except.ok cv) :
    (process fmt beh (Except.ok blob) false false g [file]).output =
      ProcessOutput.success blob
        (stripFirst fmt.stripExts file.name ++ ".pdf".data) "pdf".data := by
  simp only [process, hext, hok]
  simp

/-- The C4 contract for one format: for every base name and accepted
extension (in any letter case), a healthy engine (acquisition and conversion
succeed) and no cancellation, `process` returns success and suggests the base
name — the recognized extension stripped case-insensitively — plus `.pdf`. -/
def SuggestedNameOK (fmt : Format) : Prop :=
  ∀ (b e : List Char) (beh : EngineBeh) (g : Globals) (cv : Conv) (blob : Nat)
    (ftype : List Char),
    e.map Char.toLower ∈ fmt.validExts →
    (getConverter beh g).result = Except.ok cv →
    (process fmt beh (Except.ok blob) false false g
        [⟨b ++ '.' :: e, ftype⟩]).output =
      ProcessOutput.success blob (b ++ ".pdf".data) "pdf".data

/-- C4: the suggested-name contract holds for the PPTX, Word and RTF
processors — e.g. `Report.DOCX` yields `Report.pdf`. -/
theorem c4_suggested_name :
    SuggestedNameOK pptxFormat ∧ SuggestedNameOK wordFormat ∧
      SuggestedNameOK rtfFormat := by
  refine ⟨?_, ?_, ?_⟩
  · intro b e beh g cv blob ftype hmem hok
    have hdot : '.' ∉ e := by
      have hm2 := hmem
      simp only [pptxFormat, List.mem_cons, List.not_mem_nil, or_false] at hm2
      rcases hm2 with h | h | h <;> exact no_dot_of_map e _ h (by decide)
    have hext : pptxFormat.validExts.contains
        ((lastSegment (b ++ '.' :: e)).map Char.toLower) = true := by
      rw [lastSegment_append_dot b e hdot]
      exact List.elem_eq_true_of_mem hmem
    rw [process_success pptxFormat beh blob g ⟨b ++ '.' :: e, ftype⟩ cv hext hok]
    rw [strip_pptx b e (by simpa [pptxFormat] using hmem)]
  · intro b e beh g cv blob ftype hmem hok
    have hdot : '.' ∉ e := by
      have hm2 := hmem
      simp only [wordFormat, List.mem_cons, List.not_mem_nil, or_false] at hm2
      rcases hm2 with h | h | h | h <;> exact no_dot_of_map e _ h (by decide)
    have hext : wordFormat.validExts.contains
        ((lastSegment (b ++ '.' :: e)).map Char.toLower) = true := by
      rw [lastSegment_append_dot b e hdot]
      exact List.elem_eq_true_of_mem hmem
    rw [process_success wordFormat beh blob g ⟨b ++ '.' :: e, ftype⟩ cv hext hok]
    rw [strip_word b e (by simpa [wordFormat] using hmem)]
  · intro b e beh g cv blob ftype hmem hok
    have hdot : '.' ∉ e := by
      have hm2 := hmem
      simp only [rtfFormat, List.mem_cons, List.not_mem_nil, or_false] at hm2
      exact no_dot_of_map e _ hm2 (by decide)
    have hext : rtfFormat.validExts.contains
        ((lastSegment (b ++ '.' :: e)).map Char.toLower) = true := by
      rw [lastSegment_append_dot b e hdot]
      exact List.elem_eq_true_of_mem hmem
    rw [process_success rtfFormat beh blob g ⟨b ++ '.' :: e, ftype⟩ cv hext hok]
    rw [strip_rtf b e (by simpa [rtfFormat] using hmem)]

/-- Witness for C4: `Report.DOCX` on the Word processor yields
`Report.pdf`. -/
theorem c4_suggested_name_witness :
    ("DOCX".data.map Char.toLower ∈ wordFormat.validExts) ∧
      (getConverter behOk ⟨none, none⟩).result = Except.ok ⟨0, true⟩ ∧
      (process wordFormat behOk (Except.ok 7) false false ⟨none, none⟩
          [⟨"Report".data ++ '.' :: "DOCX".data, []⟩]).output =
        ProcessOutput.success 7 ("Report".data ++ ".pdf".data) "pdf".data :=
  ⟨by decide, by decide,
    c4_suggested_name.2.1 "Report".data "DOCX".data behOk ⟨none, none⟩
      ⟨0, true⟩ 7 [] (by decide) (by decide)⟩

/-- C10: a dot-free file name that equals an accepted extension
case-insensitively (e.g. a file literally named `rtf`) passes extension
validation — the validator takes the last dot-separated segment, here the
whole name — and on a successful conversion the suggested output name is the
unchanged name plus `.pdf`, because the stripping regex requires a leading
dot and cannot match. -/
theorem c10_dotless_extension_name (name : List Char) (beh : EngineBeh)
    (g : Globals) (cv : Conv) (blob : Nat) (ftype : List Char)
    (hnodot : '.' ∉ name)
    (hlower : name.map Char.toLower = "rtf".data)
    (hok : (getConverter beh g).result = Except.ok cv) :
    rtfFormat.validExts.contains ((lastSegment name).map Char.toLower) = true ∧
      (process rtfFormat beh (Except.ok blob) false false g
          [⟨name, ftype⟩]).output =
        ProcessOutput.success blob (name ++ ".pdf".data) "pdf".data := by
  have hext : rtfFormat.validExts.contains
      ((lastSegment name).map Char.toLower) = true := by
    rw [lastSegment_no_dot name hnodot, hlower]
    decide
  refine ⟨hext, ?_⟩
  rw [process_success rtfFormat beh blob g ⟨name, ftype⟩ cv hext hok]
  have hlen : name.length = 3 := by
    have := congrArg List.length hlower
    simpa using this
  have hstrip : stripFirst rtfFormat.stripExts name = name := by
    show stripFirst ["rtf".data] name = name
    rw [stripFirst, trySuffix_none_of_short "rtf".data name (by rw [hlen]; decide)]
    rfl
  rw [hstrip]

/-- Witness for C10: a file literally named `RTF`. -/
theorem c10_dotless_extension_name_witness :
    ('.' ∉ ("RTF".data : List Char)) ∧
      ("RTF".data.map Char.toLower = "rtf".data) ∧
      (getConverter behOk ⟨none, none⟩).result = Except.ok ⟨0, true⟩ ∧
      (rtfFormat.validExts.contains
          ((lastSegment "RTF".data).map Char.toLower) = true ∧
        (process rtfFormat behOk (Except.ok 7) false false ⟨none, none⟩
            [⟨"RTF".data, []⟩]).output =
          ProcessOutput.success 7 ("RTF".data ++ ".pdf".data) "pdf".data) :=
  ⟨by decide, by decide, by decide,
    c10_dotless_extension_name "RTF".data behOk ⟨none, none⟩ ⟨0, true⟩ 7 []
      (by decide) (by decide) (by decide)⟩
